import Mathlib

/-!
Shallow embedding of the cyber-tracer-neon-ping backend core
(src/tracer/parser.js, src/tracer/classifier.js, src/tracer/runner.js,
src/intel/gatherer.js) and proofs about the frozen specification claims.

Strings are modelled as `List Char`; JS numbers as `Option ℚ` where `none`
stands for NaN (all arithmetic the code performs on latency samples is exact
decimal arithmetic, so ℚ is a faithful carrier for the non-NaN values).
-/

namespace NeonPing

/-- JS number: `none` represents NaN, `some q` an ordinary (finite) value. -/
abbrev JSNum := Option ℚ

/-- Shorthand: the character list of a string literal. -/
def str (s : String) : List Char := s.data

/-- Characters matched by the JS regex class `[\d.]`. -/
def isTokChar (c : Char) : Bool := c.isDigit || c == '.'

/-- JS whitespace, as matched by `\s`, `String.prototype.trim` and friends
(ASCII whitespace plus no-break space; further exotic Unicode space
characters never occur in probe output). -/
def jsWs (c : Char) : Bool :=
  c == ' ' || c == '\t' || c == '\n' || c == '\r' || c == '\x0b' || c == '\x0c' ||
    c == '\u00A0'

/-- JS regex line terminators (`.` does not match these; `^` with the `m`
flag matches after them).  the Unicode line/paragraph separators never occur in probe output. -/
def isLineTerm (c : Char) : Bool := c == '\n' || c == '\r'

/-- `String.prototype.trim()`. -/
def jsTrim (cs : List Char) : List Char :=
  ((cs.dropWhile jsWs).reverse.dropWhile jsWs).reverse

/-- The text an unanchored `(.*)` capture takes: everything up to the first
line terminator. -/
def takeLine (cs : List Char) : List Char := cs.takeWhile (fun c => !isLineTerm c)

/-- Numeric value of a digit string (JS `parseInt(s, 10)` on a `\d+` match). -/
def digitsToNat (cs : List Char) : Nat :=
  cs.foldl (fun n c => 10 * n + (c.toNat - '0'.toNat)) 0

/-- JS `parseFloat` restricted to the token shapes the parser's regexes can
capture (runs of digits and dots): the longest prefix of the form
`digits [. digits]` or `. digits` is the value; a token with no such prefix
(for example a bare dot) yields NaN. -/
def jsParseFloatTok (cs : List Char) : JSNum :=
  let ipart := cs.takeWhile Char.isDigit
  match cs.dropWhile Char.isDigit with
  | '.' :: rest =>
    let fpart := rest.takeWhile Char.isDigit
    if ipart.isEmpty && fpart.isEmpty then none
    else some ((digitsToNat ipart : ℚ) + (digitsToNat fpart : ℚ) / (10 : ℚ) ^ fpart.length)
  | _ => if ipart.isEmpty then none else some (digitsToNat ipart)

/-- JS `Math.round` on a finite value: round half toward positive infinity. -/
def jsRoundQ (q : ℚ) : ℤ := ⌊q + 1 / 2⌋

/-- JS `Math.round` lifted to JS numbers (NaN rounds to NaN). -/
def jsRoundNum (x : JSNum) : JSNum := x.map (fun q => (jsRoundQ q : ℚ))

/-- JS `+` on numbers: NaN is absorbing. -/
def jsAdd : JSNum → JSNum → JSNum
  | some a, some b => some (a + b)
  | _, _ => none

/-- JS `-` on numbers: NaN is absorbing. -/
def jsSub : JSNum → JSNum → JSNum
  | some a, some b => some (a - b)
  | _, _ => none

/-- `latencies.reduce((a, b) => a + b, 0)`. -/
def jsSum (l : List JSNum) : JSNum := l.foldl jsAdd (some 0)

/-- Division of a JS number by a (positive) list length. -/
def jsDivLen (x : JSNum) (n : Nat) : JSNum := x.map (fun q => q / (n : ℚ))

/-- JS `>` against a finite constant: false when the left side is NaN. -/
def jsGt (x : JSNum) (c : ℚ) : Bool :=
  match x with
  | some a => decide (c < a)
  | none => false

/-- JS `String.prototype.split(sep)` for a one-character separator. -/
def jsSplitChar (sep : Char) : List Char → List (List Char)
  | [] => [[]]
  | c :: cs =>
    match jsSplitChar sep cs with
    | [] => [[c]]
    | h :: t => if c == sep then [] :: h :: t else (c :: h) :: t

/-- Match a `+`-quantified character class: the (non-empty) maximal run and
the remainder, or `none` if the first character does not match. -/
def munch1 (p : Char → Bool) (cs : List Char) : Option (List Char × List Char) :=
  let t := cs.takeWhile p
  if t.isEmpty then none else some (t, cs.dropWhile p)

/-- Match the literal characters `ms`. -/
def expectMs : List Char → Option (List Char)
  | 'm' :: 's' :: rest => some rest
  | _ => none

/-- Match a literal pattern case-insensitively (pattern given in lower case),
as a JS regex with the `i` flag does. -/
def expectCI : List Char → List Char → Option (List Char)
  | [], cs => some cs
  | p :: ps, c :: cs => if c.toLower == p then expectCI ps cs else none
  | _ :: _, [] => none

/-- First `some` produced by `f` along a list, in order. -/
def firstSome {α β : Type} (f : α → Option β) : List α → Option β
  | [] => none
  | a :: as =>
    match f a with
    | some b => some b
    | none => firstSome f as

/-! ## src/tracer/parser.js -/

/-- The platform dialect selector (`'unix' | 'win32'` in the source). -/
inductive Platform
  | unix
  | win32
deriving DecidableEq, Repr

/-- `HopResult` from parser.js:
`{ hop, ip, latencies, timedOut, partialLoss }`. -/
structure HopResult where
  hop : Nat
  ip : Option (List Char)
  latencies : List JSNum
  timedOut : Bool
  partialLoss : Bool
deriving DecidableEq, Repr

/-- The regex `LINUX_HOP_FULL =
`^\s*(\d+)\s+([\d.]+)\s+([\d.]+)\s+ms\s+([\d.]+)\s+ms\s+([\d.]+)\s+ms\s*$`;
its character classes are pairwise disjoint, so greedy maximal-munch matching
is exact.  Returns the record the full-match branch of `parseLinuxLine`
builds. -/
def parseLinuxFull (cs0 : List Char) : Option HopResult :=
  match munch1 Char.isDigit (cs0.dropWhile jsWs) with
  | none => none
  | some (digs, cs1) =>
  match munch1 jsWs cs1 with
  | none => none
  | some (_, cs2) =>
  match munch1 isTokChar cs2 with
  | none => none
  | some (ipTok, cs3) =>
  match munch1 jsWs cs3 with
  | none => none
  | some (_, cs4) =>
  match munch1 isTokChar cs4 with
  | none => none
  | some (t1, cs5) =>
  match munch1 jsWs cs5 with
  | none => none
  | some (_, cs6) =>
  match expectMs cs6 with
  | none => none
  | some cs7 =>
  match munch1 jsWs cs7 with
  | none => none
  | some (_, cs8) =>
  match munch1 isTokChar cs8 with
  | none => none
  | some (t2, cs9) =>
  match munch1 jsWs cs9 with
  | none => none
  | some (_, cs10) =>
  match expectMs cs10 with
  | none => none
  | some cs11 =>
  match munch1 jsWs cs11 with
  | none => none
  | some (_, cs12) =>
  match munch1 isTokChar cs12 with
  | none => none
  | some (t3, cs13) =>
  match munch1 jsWs cs13 with
  | none => none
  | some (_, cs14) =>
  match expectMs cs14 with
  | none => none
  | some cs15 =>
  if (cs15.dropWhile jsWs).isEmpty then
    some { hop := digitsToNat digs, ip := some ipTok,
           latencies := [jsParseFloatTok t1, jsParseFloatTok t2, jsParseFloatTok t3],
           timedOut := false, partialLoss := false }
  else none

/-- The regex `LINUX_HOP_START = `^\s*(\d+)\s+`` (shared prefix of
`LINUX_HOP_START` and the Windows hop-number match): hop number and the
remainder of the line. -/
def hopNumStart (cs0 : List Char) : Option (Nat × List Char) :=
  match munch1 Char.isDigit (cs0.dropWhile jsWs) with
  | none => none
  | some (digs, cs1) =>
  match munch1 jsWs cs1 with
  | none => none
  | some (_, cs2) => some (digitsToNat digs, cs2)

/-- `/^\*\s*\*\s*\*$/.test(rest)`: exactly three stars separated by optional
whitespace. -/
def isThreeStars : List Char → Bool
  | '*' :: r1 =>
    match r1.dropWhile jsWs with
    | '*' :: r2 =>
      match r2.dropWhile jsWs with
      | ['*'] => true
      | _ => false
    | _ => false
  | _ => false

/-- The global scan `/([\d.]+)\s*ms/g` over a line: at each position attempt
a (deterministic, since the classes are disjoint) match; on success capture
the token and resume after the matched `ms` (the regex `lastIndex`), on
failure advance one character.  The scan is written with an explicit fuel
counter (structural recursion, so it evaluates by reduction); every step
consumes at least one character, so fuel = length never runs out. -/
def scanLatGo : Nat → List Char → List JSNum
  | _, [] => []
  | 0, _ :: _ => []
  | fuel + 1, c :: cs =>
    if isTokChar c then
      match (cs.dropWhile isTokChar).dropWhile jsWs with
      | 'm' :: 's' :: r3 =>
        jsParseFloatTok ((c :: cs).takeWhile isTokChar) :: scanLatGo fuel r3
      | _ => scanLatGo fuel cs
    else scanLatGo fuel cs

def scanLat (cs : List Char) : List JSNum := scanLatGo cs.length cs

/-- The mixed/partial branch of `parseLinuxLine` (after `LINUX_HOP_FULL`
failed): extract the hop number, trim the remainder, recognise full timeout,
otherwise scrape a leading address token and the latency samples. -/
def parseLinuxLine (line : List Char) : Option HopResult :=
  match parseLinuxFull line with
  | some r => some r
  | none =>
    match hopNumStart line with
    | none => none
    | some (hopNum, rest0) =>
      let rest := jsTrim (takeLine rest0)
      if isThreeStars rest then
        some ⟨hopNum, none, [], true, false⟩
      else
        let ip : Option (List Char) :=
          match rest.takeWhile isTokChar with
          | [] => none
          | t => some t
        let latencies := scanLat rest
        let hasStars := rest.contains '*'
        some ⟨hopNum, ip, latencies, hasStars && latencies.isEmpty,
              hasStars && !latencies.isEmpty⟩

/-- The regex `WIN_TIMEOUT =
`^\s*(\d+)\s+\*\s+\*\s+\*\s+Request timed out\./i``. -/
def winTimeout (cs0 : List Char) : Option Nat :=
  match munch1 Char.isDigit (cs0.dropWhile jsWs) with
  | none => none
  | some (digs, cs1) =>
  match munch1 jsWs cs1 with
  | none => none
  | some (_, cs2) =>
  match cs2 with
  | '*' :: cs3 =>
    match munch1 jsWs cs3 with
    | none => none
    | some (_, cs4) =>
    match cs4 with
    | '*' :: cs5 =>
      match munch1 jsWs cs5 with
      | none => none
      | some (_, cs6) =>
      match cs6 with
      | '*' :: cs7 =>
        match munch1 jsWs cs7 with
        | none => none
        | some (_, cs8) =>
        match expectCI (str "request timed out.") cs8 with
        | none => none
        | some _ => some (digitsToNat digs)
      | _ => none
    | _ => none
  | _ => none

/-- The global scan `/(?:<)?(\d+)\s*ms/g` over a line (Windows latency
tokens; the optional `<` is not captured), fuelled like `scanLatGo`. -/
def scanWinLatGo : Nat → List Char → List JSNum
  | _, [] => []
  | 0, _ :: _ => []
  | fuel + 1, c :: cs =>
    if c == '<' || c.isDigit then
      let ds := if c == '<' then cs.takeWhile Char.isDigit
                else (c :: cs).takeWhile Char.isDigit
      if ds.isEmpty then scanWinLatGo fuel cs
      else
        match (cs.dropWhile Char.isDigit).dropWhile jsWs with
        | 'm' :: 's' :: r3 => jsParseFloatTok ds :: scanWinLatGo fuel r3
        | _ => scanWinLatGo fuel cs
    else scanWinLatGo fuel cs

def scanWinLat (cs : List Char) : List JSNum := scanWinLatGo cs.length cs

/-- `parseWindowsLine`: full timeout via `WIN_TIMEOUT`, otherwise hop number
prefix, the address as the last `[\d.]+` run at the end of the line
(`/([\d.]+)\s*$/`), and the scraped latencies (must be non-empty). -/
def parseWindowsLine (line : List Char) : Option HopResult :=
  match winTimeout line with
  | some n => some ⟨n, none, [], true, false⟩
  | none =>
    match hopNumStart line with
    | none => none
    | some (hopNum, _) =>
      let stripped := (line.reverse.dropWhile jsWs).reverse
      let ipTok := (stripped.reverse.takeWhile isTokChar).reverse
      if ipTok.isEmpty then none
      else
        let latencies := scanWinLat line
        if latencies.isEmpty then none
        else some ⟨hopNum, some ipTok, latencies, false, false⟩

/-- `parseTraceLine(line, platform)`. -/
def parseTraceLine (line : List Char) (platform : Platform) : Option HopResult :=
  match platform with
  | .win32 => parseWindowsLine line
  | .unix => parseLinuxLine line

/-- The unix lines in one of the three documented dialect shapes: the full
three-sample form, the all-stars full-timeout form, or a mixed form whose
trimmed remainder starts with an address-like token and carries at least
one latency sample.  (Used to delimit where the spec's address/timeout
equivalence holds on unix.) -/
def goodLinuxShape (line : List Char) : Bool :=
  (parseLinuxFull line).isSome ||
    (match hopNumStart line with
     | none => false
     | some (_, rest0) =>
       let rest := jsTrim (takeLine rest0)
       isThreeStars rest ||
         (!(rest.takeWhile isTokChar).isEmpty && !(scanLat rest).isEmpty))

/-! ## src/tracer/classifier.js -/

/-- `HOSTILE_DELTA_MS`: absolute ms threshold for hostile classification. -/
def HOSTILE_DELTA_MS : ℚ := 100

/-- Hop categories (`type` in the source). -/
inductive HopType
  | normal
  | hostile
  | ghost
  | lossy
deriving DecidableEq, Repr

/-- The record `classifyHop` returns.  `latencyDelta`/`lossRate` are
`number|null` in JS: the outer `Option` is JS `null`, the inner `JSNum`
carries the (possibly NaN) number. -/
structure Classification where
  type : HopType
  latencyDelta : Option JSNum
  lossRate : Option JSNum
deriving DecidableEq, Repr

/-- `avgLatency(latencies)`: average in ms, or null if empty. -/
def avgLatency (latencies : List JSNum) : Option JSNum :=
  match latencies with
  | [] => none
  | _ => some (jsDivLen (jsSum latencies) latencies.length)

/-- `classifyHop(hop, prevHop)` from classifier.js. -/
def classifyHop (hop : HopResult) (prevHop : Option HopResult) : Classification :=
  if hop.timedOut then ⟨.ghost, none, none⟩
  else if hop.partialLoss then
    let lossRate : ℚ :=
      (jsRoundQ ((3 - (hop.latencies.length : ℚ)) / 3 * 100) : ℚ) / 100
    ⟨.lossy, none, some (some lossRate)⟩
  else
    match prevHop with
    | none => ⟨.normal, none, none⟩
    | some prev =>
      if prev.timedOut then ⟨.normal, none, none⟩
      else
        match avgLatency hop.latencies, avgLatency prev.latencies with
        | some currAvg, some prevAvg =>
          let delta := jsSub currAvg prevAvg
          let roundedDelta := jsRoundNum delta
          if jsGt delta HOSTILE_DELTA_MS then ⟨.hostile, some roundedDelta, none⟩
          else ⟨.normal, some roundedDelta, none⟩
        | _, _ => ⟨.normal, none, none⟩

/-- `enrichHop(hop, prevHop)`: a fresh frozen object combining the hop's
fields with the classification fields (the input hop is not mutated). -/
structure EnrichedHop where
  hop : Nat
  ip : Option (List Char)
  latencies : List JSNum
  timedOut : Bool
  partialLoss : Bool
  type : HopType
  latencyDelta : Option JSNum
  lossRate : Option JSNum
deriving DecidableEq, Repr

def enrichHop (hop : HopResult) (prevHop : Option HopResult) : EnrichedHop :=
  let c := classifyHop hop prevHop
  ⟨hop.hop, hop.ip, hop.latencies, hop.timedOut, hop.partialLoss,
   c.type, c.latencyDelta, c.lossRate⟩

/-! ## src/intel/gatherer.js -/

/-- `LOOKUP_TIMEOUT_MS` and `MAX_WHOIS_BYTES` bound the network layer, which
is abstracted below by an oracle; they are recorded for reference. -/
def LOOKUP_TIMEOUT_MS : Nat := 5000

def MAX_WHOIS_BYTES : Nat := 64 * 1024

/-- `IANA_WHOIS`. -/
def IANA_WHOIS : List Char := str "whois.iana.org"

/-- `ALLOWED_REGISTRIES`: allowlisted WHOIS registries trusted as IANA
referrals (SSRF prevention). -/
def ALLOWED_REGISTRIES : List (List Char) :=
  [str "whois.arin.net",
   str "whois.ripe.net",
   str "whois.apnic.net",
   str "whois.lacnic.net",
   str "whois.afrinic.net",
   str "whois.nic.ad.jp",
   str "whois.jpnic.net",
   str "rr.ntt.net",
   str "whois.twnic.net",
   str "whois.krnic.net"]

/-- `IP_PATTERN = /^[\d.]+$|^[0-9a-fA-F:]+$/`: a non-empty all-digits/dots
string, or a non-empty all-hex/colons string. -/
def isHexChar (c : Char) : Bool :=
  c.isDigit || ('a' ≤ c && c ≤ 'f') || ('A' ≤ c && c ≤ 'F')

def ipPattern (s : List Char) : Bool :=
  (!s.isEmpty && s.all (fun c => c.isDigit || c == '.')) ||
    (!s.isEmpty && s.all (fun c => isHexChar c || c == ':'))

/-- `MAX_CACHE_SIZE`: evict the oldest entry when the cache reaches this
size. -/
def MAX_CACHE_SIZE : Nat := 500

/-- WHOIS response text split for the referral regex `/^refer:\s*(\S+)/im`:
with the `m` flag `^` matches at the start and after every line
terminator. -/
def splitTermLines (text : List Char) : List (List Char) :=
  text.splitOnP isLineTerm

/-- One line's match of `refer:\s*(\S+)` anchored at the line start
(case-insensitive key, then optional whitespace, then a non-empty run of
non-whitespace; the capture keeps its original case). -/
def lineReferral (line : List Char) : Option (List Char) :=
  match expectCI (str "refer:") line with
  | none => none
  | some rest =>
    let tok := (rest.dropWhile jsWs).takeWhile (fun c => !jsWs c)
    if tok.isEmpty then none else some tok

/-- The raw referral hostname named by the first `refer:` line of a WHOIS
response, lowercased (`m[1].toLowerCase()`), before the allowlist gate. -/
def rawReferral (text : List Char) : Option (List Char) :=
  (firstSome lineReferral (splitTermLines text)).map (List.map Char.toLower)

/-- `extractReferral(text)`: the referral server, or null if no `refer:`
field is found or the server is not allowlisted. -/
def extractReferral (text : List Char) : Option (List Char) :=
  match rawReferral text with
  | none => none
  | some server => if ALLOWED_REGISTRIES.contains server then some server else none

/-- A field pattern `/^Key:\s*(.+)/i` combined with the caller's
`m[1].trim()` non-emptiness check in `extract`: the trimmed text after the
(case-insensitive) key, if non-empty.  (`.+` stops at a line terminator;
backtracking of `\s*` only ever produces captures that are all whitespace,
which `extract` skips, so trimming the whole remainder is exact.) -/
def fieldAfter (key : String) (line : List Char) : Option (List Char) :=
  match expectCI (str key) line with
  | none => none
  | some rest =>
    let v := jsTrim (takeLine rest)
    if v.isEmpty then none else some v

/-- An ASN pattern `/^Key:\s*((?:AS)?\d+)/i`: after the key and optional
whitespace, an optional case-insensitive `AS` prefix (kept verbatim in the
capture) followed by a non-empty digit run. -/
def asnAfter (key : String) (line : List Char) : Option (List Char) :=
  match expectCI (str key) line with
  | none => none
  | some rest =>
    let r := rest.dropWhile jsWs
    let bare : Option (List Char) :=
      match r.takeWhile Char.isDigit with
      | [] => none
      | ds => some ds
    match r with
    | a :: s :: r2 =>
      if a.toLower == 'a' && s.toLower == 's' then
        match r2.takeWhile Char.isDigit with
        | [] => bare
        | ds => some (a :: s :: ds)
      else bare
    | _ => bare

/-- `extract(lines, patterns)`: try each pattern against each line (pattern-
major order); return the first non-empty match. -/
def extract (lines : List (List Char))
    (patterns : List (List Char → Option (List Char))) : Option (List Char) :=
  firstSome (fun p => firstSome p lines) patterns

/-- `normalizeAsn(raw)`: ensure the `AS` prefix (case-sensitive check). -/
def normalizeAsn : Option (List Char) → Option (List Char)
  | none => none
  | some raw =>
    let t := jsTrim raw
    match t with
    | 'A' :: 'S' :: _ => some t
    | _ => some ('A' :: 'S' :: t)

/-- The record `parseWhois` returns. -/
structure WhoisFields where
  org : Option (List Char)
  country : Option (List Char)
  asn : Option (List Char)
  netrange : Option (List Char)
deriving DecidableEq, Repr

/-- `parseWhois(text)`: pure parser over the response text.  (The JS
null/non-string guard coincides with the empty-text case here.) -/
def parseWhois (text : List Char) : WhoisFields :=
  if text.isEmpty then ⟨none, none, none, none⟩
  else
    let lines := jsSplitChar '\n' text
    let org := extract lines
      [fieldAfter "orgname:", fieldAfter "org-name:", fieldAfter "organization:",
       fieldAfter "netname:", fieldAfter "descr:"]
    let country := extract lines
      [fieldAfter "country:", fieldAfter "country:"]
    let asnRaw := extract lines
      [asnAfter "originas:", asnAfter "origin:"]
    let asn := normalizeAsn asnRaw
    let netrange := extract lines
      [fieldAfter "cidr:", fieldAfter "netrange:", fieldAfter "inetnum:",
       fieldAfter "route:"]
    ⟨org, country, asn, netrange⟩

/-- Network effects performed by the gatherer, in order. -/
inductive NetCall
  | dnsRev (ip : List Char)
  | whoisConn (server : List Char)
deriving DecidableEq, Repr

/-- The outside world as the gatherer sees it: `whois query server` is the
outcome of `withTimeout(tcpWhoisQuery(query, server), ...)` (`none` =
connection error or timeout, `some` = accumulated response, already capped
at `MAX_WHOIS_BYTES` by the socket loop); `dns ip` is the outcome of
`withTimeout(dns.promises.reverse(ip), ...)`. -/
structure NetOracle where
  whois : List Char → List Char → Option (List Char)
  dns : List Char → Option (List (List Char))

/-- `fetchWhoisText(ip)`: query IANA, follow an allowlisted referral once,
return empty text on any network error.  Also returns the list of servers a
connection was attempted to, in order. -/
def fetchWhoisText (ip : List Char) (net : NetOracle) : List Char × List NetCall :=
  match net.whois ip IANA_WHOIS with
  | none => ([], [NetCall.whoisConn IANA_WHOIS])
  | some ianaResponse =>
    match extractReferral ianaResponse with
    | none => (ianaResponse, [NetCall.whoisConn IANA_WHOIS])
    | some referral =>
      match net.whois ip referral with
      | none => ([], [NetCall.whoisConn IANA_WHOIS, NetCall.whoisConn referral])
      | some r2 => (r2, [NetCall.whoisConn IANA_WHOIS, NetCall.whoisConn referral])

/-- `resolveHostname(ip)`: first reverse-DNS name, or null on error. -/
def resolveHostname (ip : List Char) (net : NetOracle) : Option (List Char) :=
  match net.dns ip with
  | none => none
  | some names => names.head?

/-- The `IntelRecord` `gatherIntel` builds and caches. -/
structure Intel where
  ip : List Char
  hostname : Option (List Char)
  org : Option (List Char)
  country : Option (List Char)
  asn : Option (List Char)
  netrange : Option (List Char)
deriving DecidableEq, Repr

/-- The module-level `cache` (a JS `Map`): insertion-ordered key/value
pairs. -/
abbrev Cache := List (List Char × Intel)

/-- `cache.has(ip)` / `cache.get(ip)`. -/
def cacheGet (ip : List Char) (m : Cache) : Option Intel :=
  (m.find? (fun p => p.1 == ip)).map Prod.snd

/-- `Map.set`: overwrite in place if the key exists, else append. -/
def mapSet (ip : List Char) (v : Intel) (m : Cache) : Cache :=
  if m.any (fun p => p.1 == ip) then
    m.map (fun p => if p.1 == ip then (ip, v) else p)
  else m ++ [(ip, v)]

/-- `cacheSet(ip, intel)`: evict the oldest entry (`cache.keys().next()`)
when the cache has reached `MAX_CACHE_SIZE`, then insert. -/
def cacheSet (ip : List Char) (intel : Intel) (m : Cache) : Cache :=
  let m2 :=
    if MAX_CACHE_SIZE ≤ m.length then
      match m with
      | [] => m
      | (k0, _) :: _ => m.eraseP (fun p => p.1 == k0)
    else m
  mapSet ip intel m2

/-- `gatherIntel(ip)`: reject falsy input and input failing `IP_PATTERN`
with no network activity; serve from the cache; otherwise run the DNS and
WHOIS lookups (concurrently in JS; their calls are listed DNS first) and
cache the assembled record.  Returns (result, new cache, network calls). -/
def gatherIntel (ip : Option (List Char)) (net : NetOracle) (m : Cache) :
    Option Intel × Cache × List NetCall :=
  match ip with
  | none => (none, m, [])
  | some s =>
    if s.isEmpty then (none, m, [])
    else if !ipPattern s then (none, m, [])
    else
      match cacheGet s m with
      | some cached => (some cached, m, [])
      | none =>
        let hostname := resolveHostname s net
        let (whoisText, wcalls) := fetchWhoisText s net
        let f := parseWhois whoisText
        let intel : Intel := ⟨s, hostname, f.org, f.country, f.asn, f.netrange⟩
        (some intel, cacheSet s intel m, NetCall.dnsRev s :: wcalls)

/-- `clearCache()`. -/
def clearCache (_ : Cache) : Cache := []

/-! ## src/tracer/runner.js

`runTrace` is event-driven: after a successful spawn, the closure state is
the mutable variables `lineBuffer`, `cancelled`, `completed` plus whether
the 60-second timer is still pending (`clearTimeout` has not run and it has
not fired).  The events that can reach the closure are stdout data chunks,
stderr data chunks, the timer firing, the `error` event, the `close` event,
and a `cancel()` call.  Callback invocations are recorded in order; error
message texts are abstracted to the bare `error` callback. -/

/-- `MAX_RUNTIME_MS` (60 seconds). -/
def MAX_RUNTIME_MS : Nat := 60000

structure RunnerState where
  cancelled : Bool
  completed : Bool
  timerPending : Bool
  buffer : List Char
deriving DecidableEq, Repr

/-- The callbacks `runTrace` fires upward. -/
inductive RCallback
  | raw (line : List Char)
  | hop (h : HopResult)
  | error
  | complete
deriving DecidableEq, Repr

/-- Lifecycle events reaching the closure. -/
inductive REvent
  | data (chunk : List Char)
  | stderrData (chunk : List Char)
  | timeout
  | procError
  | close
  | cancel
deriving DecidableEq, Repr

/-- `processLine(line)`: skip blank lines, fire `onRaw`, then `onHop` when
the line parses. -/
def processLine (p : Platform) (line : List Char) : List RCallback :=
  if (jsTrim line).isEmpty then []
  else
    RCallback.raw line ::
      (match parseTraceLine line p with
       | some h => [RCallback.hop h]
       | none => [])

/-- The guarded `complete()` helper: fire `onComplete` only once. -/
def completeStep (st : RunnerState) : RunnerState × List RCallback :=
  if st.completed then (st, [])
  else ({ st with completed := true }, [RCallback.complete])

/-- One stdout chunk: append to `lineBuffer`, split on newlines, keep the
final fragment, process the complete lines. -/
def feedChunk (buf chunk : List Char) : List Char × List (List Char) :=
  let parts := jsSplitChar '\n' (buf ++ chunk)
  (parts.getLastD [], parts.dropLast)

/-- One event-handler step of the `runTrace` closure. -/
def runnerStep (p : Platform) (st : RunnerState) (ev : REvent) :
    RunnerState × List RCallback :=
  match ev with
  | .data chunk =>
    let (buf2, lines) := feedChunk st.buffer chunk
    ({ st with buffer := buf2 }, lines.flatMap (processLine p))
  | .stderrData chunk =>
    (st, if (jsTrim chunk).isEmpty then [] else [RCallback.error])
  | .procError =>
    let (st2, out) := completeStep { st with timerPending := false }
    (st2, RCallback.error :: out)
  | .close =>
    let st1 := { st with timerPending := false }
    if st.cancelled then (st1, [])
    else
      let flush := if (jsTrim st.buffer).isEmpty then [] else processLine p st.buffer
      let (st2, out) := completeStep { st1 with buffer := [] }
      (st2, flush ++ out)
  | .timeout =>
    if st.timerPending then
      let st1 := { st with timerPending := false }
      if st.cancelled then (st1, [])
      else
        let (st2, out) := completeStep { st1 with cancelled := true }
        (st2, RCallback.error :: out)
    else (st, [])
  | .cancel =>
    if st.cancelled then (st, [])
    else ({ st with cancelled := true, timerPending := false }, [])

/-- The closure state right after a successful spawn. -/
def initState : RunnerState := ⟨false, false, true, []⟩

/-- Run a sequence of events from a given state, accumulating callbacks. -/
def runFrom (p : Platform) (st : RunnerState) : List REvent → RunnerState × List RCallback
  | [] => (st, [])
  | ev :: evs =>
    ((runFrom p (runnerStep p st ev).1 evs).1,
     (runnerStep p st ev).2 ++ (runFrom p (runnerStep p st ev).1 evs).2)

/-- Run a sequence of events for one `runTrace` invocation. -/
def runEvents (p : Platform) (evs : List REvent) : RunnerState × List RCallback :=
  runFrom p initState evs

/-- Recogniser for the `onComplete` callback. -/
def isCompleteCb : RCallback → Bool
  | .complete => true
  | _ => false

/-- Number of `onComplete` firings in a callback trace. -/
def completeCount (cbs : List RCallback) : Nat := cbs.countP isCompleteCb

/-! ## Runner completion lemmas -/

theorem completeCount_append (a b : List RCallback) :
    completeCount (a ++ b) = completeCount a + completeCount b := by
  simp [completeCount, List.countP_append]

theorem completeCount_processLine (p : Platform) (line : List Char) :
    completeCount (processLine p line) = 0 := by
  unfold processLine
  split
  · rfl
  · cases parseTraceLine line p <;> simp [completeCount, List.countP_cons, isCompleteCb]

theorem completeCount_flatMap (p : Platform) (lines : List (List Char)) :
    completeCount (lines.flatMap (processLine p)) = 0 := by
  induction lines with
  | nil => rfl
  | cons l ls ih =>
    rw [List.flatMap_cons, completeCount_append, ih, completeCount_processLine]

theorem completeCount_nil : completeCount [] = 0 := rfl

theorem completeCount_single : completeCount [RCallback.complete] = 1 := rfl

theorem completeCount_error_cons (l : List RCallback) :
    completeCount (RCallback.error :: l) = completeCount l := by
  simp [completeCount, List.countP_cons, isCompleteCb]

theorem completeCount_runnerStep (p : Platform) (st : RunnerState) (ev : REvent) :
    completeCount (runnerStep p st ev).2 + (if st.completed then 1 else 0)
      = if (runnerStep p st ev).1.completed then 1 else 0 := by
  cases ev with
  | data chunk =>
    simp [runnerStep, feedChunk, completeCount_flatMap]
  | stderrData chunk =>
    by_cases h : (jsTrim chunk).isEmpty <;>
      simp [runnerStep, h, completeCount_nil, completeCount_error_cons]
  | procError =>
    by_cases h : st.completed <;>
      simp [runnerStep, completeStep, h, completeCount_nil,
        completeCount_single, completeCount_error_cons]
  | close =>
    by_cases hc : st.cancelled
    · simp [runnerStep, hc, completeCount_nil]
    · by_cases h : st.completed <;>
        by_cases hb : (jsTrim st.buffer).isEmpty <;>
          simp [runnerStep, completeStep, hc, h, hb, completeCount_append,
            completeCount_processLine, completeCount_nil, completeCount_single]
  | timeout =>
    by_cases ht : st.timerPending
    · by_cases hc : st.cancelled
      · simp [runnerStep, ht, hc, completeCount_nil]
      · by_cases h : st.completed <;>
          simp [runnerStep, completeStep, ht, hc, h, completeCount_nil,
            completeCount_single, completeCount_error_cons]
    · simp [runnerStep, ht, completeCount_nil]
  | cancel =>
    by_cases hc : st.cancelled <;> simp [runnerStep, hc, completeCount_nil]

theorem completeCount_runFrom (p : Platform) (evs : List REvent) :
    ∀ st : RunnerState,
      completeCount (runFrom p st evs).2 + (if st.completed then 1 else 0)
        = if (runFrom p st evs).1.completed then 1 else 0 := by
  induction evs with
  | nil => intro st; simp [runFrom, completeCount]
  | cons ev evs ih =>
    intro st
    simp only [runFrom, completeCount_append]
    have h1 := completeCount_runnerStep p st ev
    have h2 := ih (runnerStep p st ev).1
    omega

theorem completed_mono (p : Platform) (evs : List REvent) (st : RunnerState)
    (h : st.completed = true) : (runFrom p st evs).1.completed = true := by
  have hi := completeCount_runFrom p evs st
  rw [h] at hi
  by_contra hf
  rw [Bool.not_eq_true] at hf
  rw [hf] at hi
  simp at hi

theorem procError_completes (p : Platform) (st : RunnerState) :
    (runnerStep p st REvent.procError).1.completed = true := by
  by_cases h : st.completed <;> simp [runnerStep, completeStep, h]

theorem procError_mem_completes (p : Platform) (evs : List REvent) :
    ∀ st : RunnerState, REvent.procError ∈ evs →
      (runFrom p st evs).1.completed = true := by
  induction evs with
  | nil => intro st h; simp at h
  | cons ev evs ih =>
    intro st h
    rcases List.mem_cons.mp h with h1 | h2
    · simp only [runFrom]
      exact completed_mono p evs _ (h1 ▸ procError_completes p st)
    · simp only [runFrom]
      exact ih _ h2

theorem step_cancelImp (p : Platform) (st : RunnerState) (ev : REvent)
    (hev : ev ≠ REvent.cancel)
    (h : st.cancelled = true → st.completed = true) :
    (runnerStep p st ev).1.cancelled = true →
      (runnerStep p st ev).1.completed = true := by
  cases ev with
  | data chunk => simpa [runnerStep, feedChunk] using h
  | stderrData chunk => simpa [runnerStep] using h
  | procError =>
    by_cases hc : st.completed <;> simp [runnerStep, completeStep, hc]
  | close =>
    by_cases hc : st.cancelled
    · simp [runnerStep, hc]
      exact h hc
    · by_cases hcm : st.completed <;>
        simp [runnerStep, completeStep, hc, hcm]
  | timeout =>
    by_cases ht : st.timerPending
    · by_cases hc : st.cancelled
      · simp [runnerStep, ht, hc]
        exact h hc
      · by_cases hcm : st.completed <;>
          simp [runnerStep, completeStep, ht, hc, hcm]
    · simpa [runnerStep, ht] using h
  | cancel => exact absurd rfl hev

theorem close_completes (p : Platform) (st : RunnerState)
    (h : st.cancelled = true → st.completed = true) :
    (runnerStep p st REvent.close).1.completed = true := by
  by_cases hc : st.cancelled
  · simp [runnerStep, hc]
    exact h hc
  · by_cases hcm : st.completed <;> simp [runnerStep, completeStep, hc, hcm]

theorem close_no_prior_cancel_completes (p : Platform) (l : List REvent) :
    ∀ (r : List REvent) (st : RunnerState), REvent.cancel ∉ l →
      (st.cancelled = true → st.completed = true) →
      (runFrom p st (l ++ REvent.close :: r)).1.completed = true := by
  induction l with
  | nil =>
    intro r st _ h
    simp only [List.nil_append, runFrom]
    exact completed_mono p r _ (close_completes p st h)
  | cons ev l ih =>
    intro r st hmem h
    have hev : ev ≠ REvent.cancel := by
      intro he
      exact hmem (by simp [he])
    simp only [List.cons_append, runFrom]
    exact ih r _ (fun hm => hmem (List.mem_cons_of_mem _ hm))
      (step_cancelImp p st ev hev h)

theorem cancelled_mono_step (p : Platform) (st : RunnerState) (ev : REvent)
    (h : st.cancelled = true) : (runnerStep p st ev).1.cancelled = true := by
  cases ev with
  | data chunk => simpa [runnerStep, feedChunk] using h
  | stderrData chunk => simpa [runnerStep] using h
  | procError =>
    by_cases hc : st.completed <;> simpa [runnerStep, completeStep, hc] using h
  | close => simp [runnerStep, h]
  | timeout =>
    by_cases ht : st.timerPending <;> simp [runnerStep, ht, h]
  | cancel => simp [runnerStep, h]

theorem cancelled_mono (p : Platform) (evs : List REvent) :
    ∀ st : RunnerState, st.cancelled = true →
      (runFrom p st evs).1.cancelled = true := by
  induction evs with
  | nil => intro st h; simpa [runFrom] using h
  | cons ev evs ih =>
    intro st h
    simp only [runFrom]
    exact ih _ (cancelled_mono_step p st ev h)

theorem cancel_sets (p : Platform) (st : RunnerState) :
    (runnerStep p st REvent.cancel).1.cancelled = true := by
  by_cases h : st.cancelled <;> simp [runnerStep, h]

theorem cancel_mem_cancelled (p : Platform) (evs : List REvent) :
    ∀ st : RunnerState, REvent.cancel ∈ evs →
      (runFrom p st evs).1.cancelled = true := by
  induction evs with
  | nil => intro st h; simp at h
  | cons ev evs ih =>
    intro st h
    rcases List.mem_cons.mp h with h1 | h2
    · simp only [runFrom]
      exact cancelled_mono p evs _ (h1 ▸ cancel_sets p st)
    · simp only [runFrom]
      exact ih _ h2

/-- C1 (corrected).  For every `runTrace` invocation and every sequence of
lifecycle events, `onComplete` fires **at most** once; it fires exactly once
whenever the sequence contains a process `error` event, or a `close` event
not preceded by a `cancel()` call.  (The original claim's "exactly once"
fails when `cancel()` precedes a `close` with no `error`: then `onComplete`
never fires — see the counterexample.) -/
theorem claim_c1_completion (p : Platform) (evs : List REvent) :
    completeCount (runEvents p evs).2 ≤ 1 ∧
      ((REvent.procError ∈ evs ∨
          ∃ l r, evs = l ++ REvent.close :: r ∧ REvent.cancel ∉ l) →
        completeCount (runEvents p evs).2 = 1) := by
  have hi := completeCount_runFrom p evs initState
  have hz : (if initState.completed = true then 1 else 0) = 0 := rfl
  rw [hz, Nat.add_zero] at hi
  constructor
  · unfold runEvents
    split at hi <;> omega
  · intro h
    have hfin : (runFrom p initState evs).1.completed = true := by
      rcases h with h | ⟨l, r, rfl, hl⟩
      · exact procError_mem_completes p evs initState h
      · exact close_no_prior_cancel_completes p l r initState hl (by simp [initState])
    unfold runEvents
    simp only [hfin] at hi
    simpa using hi

/-- C1 counterexample: calling `cancel()` and then receiving only the
process `close` event fires `onComplete` zero times, not exactly once as
claimed. -/
theorem claim_c1_counterexample :
    completeCount (runEvents Platform.unix [REvent.cancel, REvent.close]).2 = 0 := by
  decide

/-- C1 witness. -/
theorem claim_c1_witness :
    completeCount (runEvents Platform.unix [REvent.close]).2 = 1 :=
  (claim_c1_completion Platform.unix [REvent.close]).2
    (Or.inr ⟨[], [], rfl, by decide⟩)

/-! ## Stream chunking lemmas (stdout line buffering) -/

theorem jsSplitChar_ne_nil (sep : Char) (l : List Char) : jsSplitChar sep l ≠ [] := by
  cases l with
  | nil => simp [jsSplitChar]
  | cons c cs =>
    unfold jsSplitChar
    split
    · simp
    · split <;> simp

theorem jsSplitChar_cons_sep (sep c : Char) (cs : List Char) (hc : (c == sep) = true) :
    jsSplitChar sep (c :: cs) = [] :: jsSplitChar sep cs := by
  cases hx : jsSplitChar sep cs with
  | nil => exact absurd hx (jsSplitChar_ne_nil sep cs)
  | cons h t =>
    unfold jsSplitChar
    rw [hx]
    simp [hc]

theorem jsSplitChar_cons_ne (sep c : Char) (cs : List Char) (hc : (c == sep) = false) :
    jsSplitChar sep (c :: cs) =
      (c :: (jsSplitChar sep cs).headI) :: (jsSplitChar sep cs).tail := by
  cases hx : jsSplitChar sep cs with
  | nil => exact absurd hx (jsSplitChar_ne_nil sep cs)
  | cons h t =>
    unfold jsSplitChar
    rw [hx]
    simp [hc]

theorem getLastD_irrel {α : Type} (a : α) (l : List α) (d₁ d₂ : α) :
    (a :: l).getLastD d₁ = (a :: l).getLastD d₂ := by
  rw [List.getLastD_cons, List.getLastD_cons]

theorem getLastD_append {α : Type} (A B : List α) (h : B ≠ []) :
    ∀ d, (A ++ B).getLastD d = B.getLastD d := by
  induction A with
  | nil => intro d; rfl
  | cons a A ih =>
    intro d
    simp only [List.cons_append, List.getLastD_cons]
    rw [ih a]
    cases B with
    | nil => exact absurd rfl h
    | cons b B2 => exact getLastD_irrel b B2 a d

theorem getLastD_mem {α : Type} (l : List α) (h : l ≠ []) :
    ∀ d, l.getLastD d ∈ l := by
  induction l with
  | nil => exact absurd rfl h
  | cons a l ih =>
    intro d
    cases l with
    | nil => simp [List.getLastD_cons]
    | cons b m =>
      have hm := ih (by simp) a
      rw [List.getLastD_cons] at hm
      rw [List.getLastD_cons, List.getLastD_cons]
      exact List.mem_cons_of_mem _ hm

theorem split_no_sep (sep : Char) (l : List Char) (h : sep ∉ l) :
    jsSplitChar sep l = [l] := by
  induction l with
  | nil => rfl
  | cons c cs ih =>
    have hc : (c == sep) = false := by
      rw [beq_eq_false_iff_ne]
      intro he
      subst he
      exact h (List.mem_cons_self c cs)
    rw [jsSplitChar_cons_ne sep c cs hc, ih (fun hm => h (List.mem_cons_of_mem _ hm))]
    rfl

theorem mem_split_no_sep (sep : Char) (l : List Char) :
    ∀ part ∈ jsSplitChar sep l, sep ∉ part := by
  induction l with
  | nil =>
    intro part hp
    simp [jsSplitChar] at hp
    subst hp
    simp
  | cons c cs ih =>
    intro part hp
    cases hsc : jsSplitChar sep cs with
    | nil => exact absurd hsc (jsSplitChar_ne_nil sep cs)
    | cons h1 t =>
      by_cases hc : (c == sep) = true
      · rw [jsSplitChar_cons_sep sep c cs hc] at hp
        rcases List.mem_cons.mp hp with rfl | hp2
        · simp
        · exact ih part hp2
      · rw [jsSplitChar_cons_ne sep c cs (by simpa using hc), hsc] at hp
        rcases List.mem_cons.mp hp with rfl | hp2
        · intro hm
          rcases List.mem_cons.mp hm with he | hm2
          · exact hc (by simp [he])
          · exact ih h1 (hsc ▸ List.mem_cons_self h1 t) hm2
        · exact ih part (hsc ▸ List.mem_cons_of_mem h1 hp2)

theorem split_splice (sep : Char) (y : List Char) :
    ∀ x : List Char,
      jsSplitChar sep (x ++ y) =
        (jsSplitChar sep x).dropLast ++
          jsSplitChar sep ((jsSplitChar sep x).getLastD [] ++ y) := by
  intro x
  induction x with
  | nil => simp [jsSplitChar]
  | cons c x2 ih =>
    cases hx : jsSplitChar sep x2 with
    | nil => exact absurd hx (jsSplitChar_ne_nil sep x2)
    | cons h t =>
      by_cases hc : (c == sep) = true
      · rw [List.cons_append, jsSplitChar_cons_sep sep c (x2 ++ y) hc, ih,
          jsSplitChar_cons_sep sep c x2 hc, hx]
        cases t with
        | nil => simp [List.getLastD_cons]
        | cons t0 t1 =>
          simp only [List.dropLast_cons₂, List.cons_append, List.getLastD_cons]
      · have hcf : (c == sep) = false := by simpa using hc
        rw [List.cons_append, jsSplitChar_cons_ne sep c (x2 ++ y) hcf, ih,
          jsSplitChar_cons_ne sep c x2 hcf, hx]
        cases t with
        | nil =>
          simp [jsSplitChar_cons_ne sep c (h ++ y) hcf]
        | cons t0 t1 =>
          simp [List.dropLast_cons₂, List.getLastD_cons]

theorem runFrom_append (p : Platform) (evs1 evs2 : List REvent) :
    ∀ st : RunnerState,
      runFrom p st (evs1 ++ evs2)
        = ((runFrom p (runFrom p st evs1).1 evs2).1,
           (runFrom p st evs1).2 ++ (runFrom p (runFrom p st evs1).1 evs2).2) := by
  induction evs1 with
  | nil => intro st; simp [runFrom]
  | cons ev evs ih =>
    intro st
    simp only [List.cons_append, runFrom, List.append_eq]
    rw [ih]
    simp [List.append_assoc]

theorem runFrom_data (p : Platform) (chunks : List (List Char)) :
    ∀ st : RunnerState, '\n' ∉ st.buffer →
      runFrom p st (chunks.map REvent.data) =
        ({ st with buffer := (jsSplitChar '\n' (st.buffer ++ chunks.flatten)).getLastD [] },
         ((jsSplitChar '\n' (st.buffer ++ chunks.flatten)).dropLast).flatMap
           (processLine p)) := by
  induction chunks with
  | nil =>
    intro st h
    simp only [List.map_nil, runFrom, List.flatten_nil, List.append_nil]
    rw [split_no_sep _ _ h]
    simp
  | cons chunk chunks ih =>
    intro st h
    simp only [List.map_cons, runFrom]
    have hstep : runnerStep p st (REvent.data chunk)
        = ({ st with buffer := (jsSplitChar '\n' (st.buffer ++ chunk)).getLastD [] },
           ((jsSplitChar '\n' (st.buffer ++ chunk)).dropLast).flatMap (processLine p)) := by
      simp [runnerStep, feedChunk]
    have hb : '\n' ∉ (jsSplitChar '\n' (st.buffer ++ chunk)).getLastD [] :=
      mem_split_no_sep _ _ _
        (getLastD_mem _ (jsSplitChar_ne_nil _ _) [])
    rw [hstep, ih _ hb]
    have hsplice := split_splice '\n' chunks.flatten (st.buffer ++ chunk)
    have hne := jsSplitChar_ne_nil '\n'
      ((jsSplitChar '\n' (st.buffer ++ chunk)).getLastD [] ++ chunks.flatten)
    simp only [List.flatten_cons, ← List.append_assoc, hsplice]
    rw [getLastD_append _ _ hne, List.dropLast_append_of_ne_nil _ hne,
      List.flatMap_append]

theorem flush_eq_processLine (p : Platform) (b : List Char) :
    (if (jsTrim b).isEmpty then ([] : List RCallback) else processLine p b) =
      processLine p b := by
  by_cases h : (jsTrim b).isEmpty <;> simp [processLine, h]

/-- C8 (confirmed).  The sequence of lines fed to `processLine` is
independent of stdout chunk boundaries: for every chunking, the callbacks
of a run consisting of the data chunks followed by the stream close are
exactly those of the content split on newlines — all parts but the last
processed as lines, the trailing fragment flushed as one final line (it is
dropped inside `processLine` when blank) — followed by `onComplete`; hence
any two chunkings of the same content deliver identical callback traces. -/
theorem claim_c8_chunking (p : Platform) (chunks chunks2 : List (List Char)) :
    (runEvents p (chunks.map REvent.data ++ [REvent.close])).2 =
        ((jsSplitChar '\n' chunks.flatten).dropLast).flatMap (processLine p) ++
          (processLine p ((jsSplitChar '\n' chunks.flatten).getLastD []) ++
            [RCallback.complete]) ∧
      (chunks.flatten = chunks2.flatten →
        (runEvents p (chunks.map REvent.data ++ [REvent.close])).2 =
          (runEvents p (chunks2.map REvent.data ++ [REvent.close])).2) := by
  have main : ∀ ch : List (List Char),
      (runEvents p (ch.map REvent.data ++ [REvent.close])).2 =
        ((jsSplitChar '\n' ch.flatten).dropLast).flatMap (processLine p) ++
          (processLine p ((jsSplitChar '\n' ch.flatten).getLastD []) ++
            [RCallback.complete]) := by
    intro ch
    unfold runEvents
    rw [runFrom_append, runFrom_data p ch initState (by simp [initState])]
    simp only [runFrom, initState, List.nil_append]
    simp [runnerStep, completeStep, flush_eq_processLine]
    intro h
    simp [processLine, h]
  exact ⟨main chunks, fun he => by rw [main chunks, main chunks2, he]⟩

/-- C8 witness: two different chunkings of the same stdout content. -/
theorem claim_c8_witness :
    (runEvents Platform.unix
        ([str " 1  ", str "10.0.0.1  1 ms 2 ms 3 ms\n 2  *", str " * *\n 3 x"].map
            REvent.data ++ [REvent.close])).2 =
      (runEvents Platform.unix
        ([str " 1  10.0.0.1  1 ms 2 ms 3 ms\n", str " 2  * * *\n 3 x"].map
            REvent.data ++ [REvent.close])).2 :=
  (claim_c8_chunking Platform.unix
      [str " 1  ", str "10.0.0.1  1 ms 2 ms 3 ms\n 2  *", str " * *\n 3 x"]
      [str " 1  10.0.0.1  1 ms 2 ms 3 ms\n", str " 2  * * *\n 3 x"]).2
    (by decide)

/-- C10 (confirmed).  A `cancel()` call anywhere in the event sequence
leaves the closure cancelled, and the timeout firing while the timer is
pending cancels as well; from any cancelled state the `close` handler
delivers nothing at all — the buffered trailing fragment is not flushed (no
`onRaw`/`onHop`/`onComplete` fires from the close path) and completion is
not triggered again. -/
theorem claim_c10_cancel_close (p : Platform) (evs : List REvent)
    (st : RunnerState) :
    (REvent.cancel ∈ evs → (runEvents p evs).1.cancelled = true) ∧
      (st.timerPending = true →
        (runnerStep p st REvent.timeout).1.cancelled = true) ∧
      (st.cancelled = true →
        (runnerStep p st REvent.close).2 = [] ∧
          (runnerStep p st REvent.close).1.completed = st.completed ∧
          (runnerStep p st REvent.close).1.buffer = st.buffer) := by
  refine ⟨fun h => cancel_mem_cancelled p evs initState h, fun ht => ?_, fun hc => ?_⟩
  · by_cases hc : st.cancelled <;> by_cases hcm : st.completed <;>
      simp [runnerStep, completeStep, ht, hc, hcm]
  · simp [runnerStep, hc]

/-! ## Gatherer claims -/

/-- C2 (confirmed).  When the IANA response names a referral host that is in
the allowlist, exactly one follow-up connection is made, to that host, and
its response is used; when the named host is not in the allowlist, the IANA
response is used verbatim and no further connection is attempted. -/
theorem claim_c2_referral (ip resp : List Char) (net : NetOracle)
    (h : net.whois ip IANA_WHOIS = some resp) :
    (∀ srv, rawReferral resp = some srv → ALLOWED_REGISTRIES.contains srv = true →
        fetchWhoisText ip net =
          ((net.whois ip srv).getD [],
           [NetCall.whoisConn IANA_WHOIS, NetCall.whoisConn srv])) ∧
      (∀ srv, rawReferral resp = some srv →
          ALLOWED_REGISTRIES.contains srv = false →
        fetchWhoisText ip net = (resp, [NetCall.whoisConn IANA_WHOIS])) := by
  constructor
  · intro srv hr hmem
    have hm2 : srv ∈ ALLOWED_REGISTRIES := by simpa using hmem
    have he : extractReferral resp = some srv := by
      unfold extractReferral
      rw [hr]
      simp [hm2]
    cases hw : net.whois ip srv with
    | none => unfold fetchWhoisText; rw [h]; simp [he, hw]
    | some r2 => unfold fetchWhoisText; rw [h]; simp [he, hw]
  · intro srv hr hmem
    have hm2 : srv ∉ ALLOWED_REGISTRIES := by simpa using hmem
    have he : extractReferral resp = none := by
      unfold extractReferral
      rw [hr]
      simp [hm2]
    unfold fetchWhoisText
    rw [h]
    simp [he]

/-- C2 witness: a coordinator response referring to a host outside the
allowlist is used verbatim, with no connection to that host. -/
theorem claim_c2_witness :
    fetchWhoisText (str "1.2.3.4")
        ⟨fun _ s => if s = IANA_WHOIS
            then some (str "refer: evil.example.com\nOrgName: X")
            else some (str "ok"),
         fun _ => none⟩ =
      (str "refer: evil.example.com\nOrgName: X",
       [NetCall.whoisConn IANA_WHOIS]) :=
  (claim_c2_referral (str "1.2.3.4") (str "refer: evil.example.com\nOrgName: X")
      ⟨fun _ s => if s = IANA_WHOIS
          then some (str "refer: evil.example.com\nOrgName: X")
          else some (str "ok"),
       fun _ => none⟩
      (by decide)).2 (str "evil.example.com") (by decide) (by decide)

/-- C7 (corrected).  Falsy input (none/empty) and input failing the
`IP_PATTERN` syntactic check yield no result, an unchanged cache, and no
network activity.  (The claim's "oversized" gloss fails: an oversized
all-digit string passes `IP_PATTERN` and does trigger lookups — see the
counterexample.) -/
theorem claim_c7_reject (ip : Option (List Char)) (net : NetOracle) (m : Cache)
    (h : ip = none ∨ ip = some [] ∨ ∃ s, ip = some s ∧ ipPattern s = false) :
    gatherIntel ip net m = (none, m, []) := by
  rcases h with rfl | rfl | ⟨s, rfl, hs⟩
  · rfl
  · rfl
  · unfold gatherIntel
    by_cases he : s.isEmpty
    · simp [he]
    · simp [he, hs]

set_option maxRecDepth 100000 in
/-- C7 counterexample: a 300-digit (oversized, not a real address) string
passes the syntactic check, so `gatherIntel` performs the reverse-DNS and
WHOIS lookups and returns a result rather than rejecting it. -/
theorem claim_c7_counterexample :
    ipPattern (List.replicate 300 '1') = true ∧
      (gatherIntel (some (List.replicate 300 '1'))
          ⟨fun _ _ => none, fun _ => none⟩ []).2.2 =
        [NetCall.dnsRev (List.replicate 300 '1'), NetCall.whoisConn IANA_WHOIS] ∧
      (gatherIntel (some (List.replicate 300 '1'))
          ⟨fun _ _ => none, fun _ => none⟩ []).1 ≠ none := by
  refine ⟨by decide, by decide, by decide⟩

/-- C7 witness: a shell-metacharacter string fails the check and is
rejected with no lookups and no cache change. -/
theorem claim_c7_witness :
    gatherIntel (some (str "evil.example.com"))
        ⟨fun _ _ => none, fun _ => none⟩ [] = (none, [], []) :=
  claim_c7_reject (some (str "evil.example.com"))
    ⟨fun _ _ => none, fun _ => none⟩ []
    (Or.inr (Or.inr ⟨str "evil.example.com", rfl, by decide⟩))

/-! ## Classifier claims -/

theorem jsSum_map_some (qs : List ℚ) : jsSum (qs.map some) = some qs.sum := by
  have hgen : ∀ (l : List ℚ) (a : ℚ),
      List.foldl jsAdd (some a) (l.map some) = some (a + l.sum) := by
    intro l
    induction l with
    | nil => intro a; simp
    | cons x xs ih =>
      intro a
      simp only [List.map_cons, List.foldl_cons, jsAdd, List.sum_cons]
      rw [ih]
      ring_nf
  simpa [jsSum] using hgen qs 0

theorem avgLatency_map_some (qs : List ℚ) (h : qs ≠ []) :
    avgLatency (qs.map some) = some (some (qs.sum / (qs.length : ℚ))) := by
  cases qs with
  | nil => exact absurd rfl h
  | cons x xs =>
    show some (jsDivLen (jsSum ((x :: xs).map some)) ((x :: xs).map some).length)
      = some (some ((x :: xs).sum / ((x :: xs).length : ℚ)))
    rw [jsSum_map_some]
    simp [jsDivLen]

/-- C3 (confirmed).  For a current hop with both loss flags false and a
previous non-timed-out hop, when both latency lists consist of real (non-
NaN) samples and are non-empty, `classifyHop` returns `hostile` exactly
when mean(current) − mean(previous) is strictly greater than 100; a delta
of exactly 100 yields `normal`; and in both cases the delta rounded to the
nearest integer (JS `Math.round`) is carried as `latencyDelta`. -/
theorem claim_c3_hostile_threshold (hop prev : HopResult) (qs ps : List ℚ)
    (h1 : hop.timedOut = false) (h2 : hop.partialLoss = false)
    (h3 : prev.timedOut = false)
    (hq : hop.latencies = qs.map some) (hp : prev.latencies = ps.map some)
    (hqne : qs ≠ []) (hpne : ps ≠ []) :
    ((classifyHop hop (some prev)).type = HopType.hostile ↔
        100 < qs.sum / (qs.length : ℚ) - ps.sum / (ps.length : ℚ)) ∧
      (qs.sum / (qs.length : ℚ) - ps.sum / (ps.length : ℚ) = 100 →
        (classifyHop hop (some prev)).type = HopType.normal) ∧
      (classifyHop hop (some prev)).latencyDelta =
        some (some ((jsRoundQ
          (qs.sum / (qs.length : ℚ) - ps.sum / (ps.length : ℚ)) : ℤ) : ℚ)) := by
  have ha := avgLatency_map_some qs hqne
  have hb := avgLatency_map_some ps hpne
  have hcl : classifyHop hop (some prev) =
      (if jsGt (jsSub (some (qs.sum / (qs.length : ℚ)))
            (some (ps.sum / (ps.length : ℚ)))) HOSTILE_DELTA_MS
        then ⟨HopType.hostile,
              some (jsRoundNum (jsSub (some (qs.sum / (qs.length : ℚ)))
                (some (ps.sum / (ps.length : ℚ))))), none⟩
        else ⟨HopType.normal,
              some (jsRoundNum (jsSub (some (qs.sum / (qs.length : ℚ)))
                (some (ps.sum / (ps.length : ℚ))))), none⟩) := by
    unfold classifyHop
    rw [h1, h2]
    simp only [Bool.false_eq_true, if_false]
    rw [hq, hp]
    simp [h3, ha, hb]
  rw [hcl]
  simp only [jsSub, jsGt, jsRoundNum, HOSTILE_DELTA_MS, Option.map_some]
  set d : ℚ := qs.sum / (qs.length : ℚ) - ps.sum / (ps.length : ℚ) with hd
  by_cases hgt : 100 < d
  · refine ⟨by simp [hgt], fun heq => ?_, by simp [hgt]⟩
    rw [heq] at hgt
    exact absurd hgt (by norm_num)
  · exact ⟨by simp [hgt], fun heq => by simp [hgt], by simp [hgt]⟩

/-- C3 witness: previous mean 20, current mean 121 gives delta 101 and the
`hostile` category. -/
theorem claim_c3_witness :
    (classifyHop ⟨2, none, [some 121], false, false⟩
        (some ⟨1, none, [some 20], false, false⟩)).type = HopType.hostile :=
  ((claim_c3_hostile_threshold ⟨2, none, [some 121], false, false⟩
      ⟨1, none, [some 20], false, false⟩ [121] [20]
      rfl rfl rfl rfl rfl (by decide) (by decide)).1).mpr (by norm_num)

/-- C9 (confirmed).  `classifyHop` is total and never forms the mean of an
empty latency list: a non-flagged current hop with an empty latency list is
classified `normal` with `latencyDelta` null for every previous hop, and
likewise whenever the previous hop is not timed out but has an empty
latency list. -/
theorem claim_c9_empty_latencies (hop prev : HopResult) (pOpt : Option HopResult)
    (h1 : hop.timedOut = false) (h2 : hop.partialLoss = false) :
    (hop.latencies = [] →
        classifyHop hop pOpt = ⟨HopType.normal, none, none⟩) ∧
      (prev.timedOut = false → prev.latencies = [] →
        classifyHop hop (some prev) = ⟨HopType.normal, none, none⟩) := by
  constructor
  · intro hl
    unfold classifyHop
    rw [h1, h2]
    simp only [Bool.false_eq_true, if_false]
    cases pOpt with
    | none => rfl
    | some prev2 =>
      by_cases hp2 : prev2.timedOut = true
      · simp [hp2]
      · simp only [hp2, Bool.false_eq_true, if_false]
        rw [hl]
        cases hb : avgLatency prev2.latencies <;> rfl
  · intro h3 hl
    unfold classifyHop
    rw [h1, h2]
    simp only [Bool.false_eq_true, if_false]
    cases ha : avgLatency hop.latencies with
    | none => simp [h3, hl, ha, show avgLatency ([] : List JSNum) = none from rfl]
    | some r => simp [h3, hl, ha, show avgLatency ([] : List JSNum) = none from rfl]

/-- C9 witness. -/
theorem claim_c9_witness :
    (classifyHop ⟨1, none, [], false, false⟩ none
        = ⟨HopType.normal, none, none⟩) ∧
      (classifyHop ⟨2, none, [], false, false⟩
          (some ⟨1, none, [], false, false⟩)
        = ⟨HopType.normal, none, none⟩) :=
  ⟨(claim_c9_empty_latencies ⟨1, none, [], false, false⟩
      ⟨1, none, [], false, false⟩ none rfl rfl).1 rfl,
   (claim_c9_empty_latencies ⟨2, none, [], false, false⟩
      ⟨1, none, [], false, false⟩ none rfl rfl).2 rfl rfl⟩

/-! ## Parser claims -/

theorem parseLinuxFull_shape (cs : List Char) (r : HopResult)
    (h : parseLinuxFull cs = some r) :
    r.timedOut = false ∧ r.partialLoss = false ∧ r.ip ≠ none := by
  unfold parseLinuxFull at h
  rcases h1 : munch1 Char.isDigit (cs.dropWhile jsWs) with _ | ⟨digs, cs1⟩
  · simp only [h1] at h
    exact Option.noConfusion h
  simp only [h1] at h
  rcases h2 : munch1 jsWs cs1 with _ | ⟨w1, cs2⟩
  · simp only [h2] at h
    exact Option.noConfusion h
  simp only [h2] at h
  rcases h3 : munch1 isTokChar cs2 with _ | ⟨ipTok, cs3⟩
  · simp only [h3] at h
    exact Option.noConfusion h
  simp only [h3] at h
  rcases h4 : munch1 jsWs cs3 with _ | ⟨w2, cs4⟩
  · simp only [h4] at h
    exact Option.noConfusion h
  simp only [h4] at h
  rcases h5 : munch1 isTokChar cs4 with _ | ⟨t1, cs5⟩
  · simp only [h5] at h
    exact Option.noConfusion h
  simp only [h5] at h
  rcases h6 : munch1 jsWs cs5 with _ | ⟨w3, cs6⟩
  · simp only [h6] at h
    exact Option.noConfusion h
  simp only [h6] at h
  rcases h7 : expectMs cs6 with _ | cs7
  · simp only [h7] at h
    exact Option.noConfusion h
  simp only [h7] at h
  rcases h8 : munch1 jsWs cs7 with _ | ⟨w4, cs8⟩
  · simp only [h8] at h
    exact Option.noConfusion h
  simp only [h8] at h
  rcases h9 : munch1 isTokChar cs8 with _ | ⟨t2, cs9⟩
  · simp only [h9] at h
    exact Option.noConfusion h
  simp only [h9] at h
  rcases h10 : munch1 jsWs cs9 with _ | ⟨w5, cs10⟩
  · simp only [h10] at h
    exact Option.noConfusion h
  simp only [h10] at h
  rcases h11 : expectMs cs10 with _ | cs11
  · simp only [h11] at h
    exact Option.noConfusion h
  simp only [h11] at h
  rcases h12 : munch1 jsWs cs11 with _ | ⟨w6, cs12⟩
  · simp only [h12] at h
    exact Option.noConfusion h
  simp only [h12] at h
  rcases h13 : munch1 isTokChar cs12 with _ | ⟨t3, cs13⟩
  · simp only [h13] at h
    exact Option.noConfusion h
  simp only [h13] at h
  rcases h14 : munch1 jsWs cs13 with _ | ⟨w7, cs14⟩
  · simp only [h14] at h
    exact Option.noConfusion h
  simp only [h14] at h
  rcases h15 : expectMs cs14 with _ | cs15
  · simp only [h15] at h
    exact Option.noConfusion h
  simp only [h15] at h
  split at h
  · obtain rfl := Option.some_inj.mp h
    simp
  · exact Option.noConfusion h

theorem parseLinuxLine_cases (line : List Char) (rec : HopResult)
    (h : parseLinuxLine line = some rec) :
    parseLinuxFull line = some rec ∨
      (parseLinuxFull line = none ∧
        ∃ n rest0, hopNumStart line = some (n, rest0) ∧
          ((isThreeStars (jsTrim (takeLine rest0)) = true ∧
              rec = ⟨n, none, [], true, false⟩) ∨
            (isThreeStars (jsTrim (takeLine rest0)) = false ∧
              rec = ⟨n,
                (match (jsTrim (takeLine rest0)).takeWhile isTokChar with
                 | [] => none
                 | t => some t),
                scanLat (jsTrim (takeLine rest0)),
                (jsTrim (takeLine rest0)).contains '*' &&
                  (scanLat (jsTrim (takeLine rest0))).isEmpty,
                (jsTrim (takeLine rest0)).contains '*' &&
                  !(scanLat (jsTrim (takeLine rest0))).isEmpty⟩))) := by
  unfold parseLinuxLine at h
  cases hf : parseLinuxFull line with
  | some r0 =>
    simp only [hf] at h
    left
    exact h
  | none =>
    simp only [hf] at h
    right
    refine ⟨rfl, ?_⟩
    cases hs : hopNumStart line with
    | none =>
      simp only [hs] at h
      exact Option.noConfusion h
    | some pr =>
      obtain ⟨n, rest0⟩ := pr
      simp only [hs] at h
      refine ⟨n, rest0, rfl, ?_⟩
      by_cases h3 : isThreeStars (jsTrim (takeLine rest0)) = true
      · left
        refine ⟨h3, ?_⟩
        simp only [h3, if_true] at h
        exact (Option.some_inj.mp h).symm
      · right
        have h3f : isThreeStars (jsTrim (takeLine rest0)) = false := by
          simpa using h3
        refine ⟨h3f, ?_⟩
        simp only [h3f, Bool.false_eq_true, if_false] at h
        exact (Option.some_inj.mp h).symm

theorem parseWindowsLine_shape (line : List Char) (rec : HopResult)
    (h : parseWindowsLine line = some rec) :
    rec.partialLoss = false ∧ (rec.ip = none ↔ rec.timedOut = true) := by
  unfold parseWindowsLine at h
  cases hw : winTimeout line with
  | some n =>
    simp only [hw] at h
    obtain rfl := Option.some_inj.mp h
    simp
  | none =>
    simp only [hw] at h
    cases hs : hopNumStart line with
    | none =>
      simp only [hs] at h
      exact Option.noConfusion h
    | some pr =>
      obtain ⟨hopNum, rest⟩ := pr
      simp only [hs] at h
      split at h
      · exact Option.noConfusion h
      · split at h
        · exact Option.noConfusion h
        · obtain rfl := Option.some_inj.mp h
          simp

theorem parser_partialLoss (p : Platform) (line : List Char) (rec : HopResult)
    (h : parseTraceLine line p = some rec) (hp : rec.partialLoss = true) :
    rec.timedOut = false ∧ rec.latencies ≠ [] := by
  cases p with
  | win32 =>
    exact absurd hp (by simp [(parseWindowsLine_shape line rec h).1])
  | unix =>
    rcases parseLinuxLine_cases line rec h with hfull | ⟨_, n, rest0, _, hcase⟩
    · exact absurd hp (by simp [(parseLinuxFull_shape line rec hfull).2.1])
    · rcases hcase with ⟨_, rfl⟩ | ⟨_, rfl⟩
      · simp at hp
      · have hand := hp
        rw [Bool.and_eq_true] at hand
        have hne : (scanLat (jsTrim (takeLine rest0))).isEmpty = false := by
          simpa using hand.2
        constructor
        · show ((jsTrim (takeLine rest0)).contains '*' &&
              (scanLat (jsTrim (takeLine rest0))).isEmpty) = false
          rw [hne, Bool.and_false]
        · show scanLat (jsTrim (takeLine rest0)) ≠ []
          intro hnil
          rw [hnil] at hne
          simp at hne

/-- C5 (corrected).  On win32, a parsed record's address is none exactly
when it is a full timeout.  On unix this holds for lines in one of the
three documented shapes (full three-sample, all-stars, or mixed with a
leading address token and at least one sample), and for those shapes
partial-loss records always carry an address.  (Unrestricted, the
equivalence fails on unix: see the counterexample.) -/
theorem claim_c5_address_timeout :
    (∀ (line : List Char) (rec : HopResult), parseWindowsLine line = some rec →
        (rec.ip = none ↔ rec.timedOut = true)) ∧
      (∀ (line : List Char) (rec : HopResult), parseLinuxLine line = some rec →
        goodLinuxShape line = true →
        ((rec.ip = none ↔ rec.timedOut = true) ∧
          (rec.partialLoss = true → rec.ip ≠ none))) := by
  constructor
  · intro line rec h
    exact (parseWindowsLine_shape line rec h).2
  · intro line rec h hg
    rcases parseLinuxLine_cases line rec h with hfull | ⟨hnone, n, rest0, hs, hcase⟩
    · obtain ⟨ht, hpl, hip⟩ := parseLinuxFull_shape line rec hfull
      constructor
      · simp [ht, hip]
      · exact fun _ => hip
    · unfold goodLinuxShape at hg
      rw [hnone, hs] at hg
      simp only [Option.isSome_none, Bool.false_or] at hg
      rcases hcase with ⟨h3, rfl⟩ | ⟨h3f, rfl⟩
      · simp
      · rw [h3f] at hg
        simp only [Bool.false_or, Bool.and_eq_true] at hg
        obtain ⟨htok, hscan⟩ := hg
        have htok2 : (jsTrim (takeLine rest0)).takeWhile isTokChar ≠ [] := by
          simpa using htok
        have hscan2 : (scanLat (jsTrim (takeLine rest0))).isEmpty = false := by
          simpa using hscan
        cases htk : (jsTrim (takeLine rest0)).takeWhile isTokChar with
        | nil => exact absurd htk htok2
        | cons a t => simp [hscan2]

/-- C5 counterexample: the unix line ` 3  * 2.345 ms *` (first probe lost,
so no leading address token) parses to a record with `partialLoss` true,
`timedOut` false and `ip` none — refuting both the address/timeout
equivalence and "partial-loss records carry an address". -/
theorem claim_c5_counterexample :
    ((parseTraceLine (str " 3  * 2.345 ms *") Platform.unix).map
        (fun r => (r.ip, r.timedOut, r.partialLoss))) =
      some (none, false, true) := by
  decide

/-- C5 witness: the all-stars unix line. -/
theorem claim_c5_witness :
    (((⟨2, none, [], true, false⟩ : HopResult).ip = none ↔
        (⟨2, none, [], true, false⟩ : HopResult).timedOut = true) ∧
      ((⟨2, none, [], true, false⟩ : HopResult).partialLoss = true →
        (⟨2, none, [], true, false⟩ : HopResult).ip ≠ none)) :=
  claim_c5_address_timeout.2 (str " 2  * * *") ⟨2, none, [], true, false⟩
    (by decide) (by decide)

theorem classifyHop_lossy (rec : HopResult) (prev : Option HopResult)
    (ht : rec.timedOut = false) (hp : rec.partialLoss = true) :
    classifyHop rec prev =
      ⟨HopType.lossy, none,
        some (some ((jsRoundQ ((3 - (rec.latencies.length : ℚ)) / 3 * 100) : ℚ)
          / 100))⟩ := by
  unfold classifyHop
  rw [ht, hp]
  simp

/-- C6 (corrected).  Every parser-produced record with `partialLoss` true is
classified `lossy` with lossRate `(3 − samples)/3` rounded to two decimals
(the JS computation), and this lossRate lies in [0,1] whenever at most
three samples were retained.  (With four or more retained samples —
possible for malformed lines — the lossRate is negative: see the
counterexample.) -/
theorem claim_c6_lossy (p : Platform) (line : List Char) (rec : HopResult)
    (prev : Option HopResult)
    (h : parseTraceLine line p = some rec) (hp : rec.partialLoss = true) :
    (classifyHop rec prev).type = HopType.lossy ∧
      (classifyHop rec prev).lossRate =
        some (some ((jsRoundQ ((3 - (rec.latencies.length : ℚ)) / 3 * 100) : ℚ)
          / 100)) ∧
      (rec.latencies.length ≤ 3 →
        ∃ q : ℚ, (classifyHop rec prev).lossRate = some (some q) ∧
          0 ≤ q ∧ q ≤ 1) := by
  obtain ⟨ht, hne⟩ := parser_partialLoss p line rec h hp
  have hcl := classifyHop_lossy rec prev ht hp
  refine ⟨by rw [hcl], by rw [hcl], fun hle => ?_⟩
  have h1 : 1 ≤ rec.latencies.length := List.length_pos.mpr hne
  have hn1 : (1 : ℚ) ≤ (rec.latencies.length : ℚ) := by exact_mod_cast h1
  have hn3 : ((rec.latencies.length : ℚ)) ≤ 3 := by exact_mod_cast hle
  refine ⟨(jsRoundQ ((3 - (rec.latencies.length : ℚ)) / 3 * 100) : ℚ) / 100,
    by rw [hcl], ?_, ?_⟩
  · have hf : (0 : ℤ) ≤ jsRoundQ ((3 - (rec.latencies.length : ℚ)) / 3 * 100) := by
      unfold jsRoundQ
      refine Int.le_floor.mpr ?_
      push_cast
      linarith
    have hq : (0 : ℚ) ≤
        ((jsRoundQ ((3 - (rec.latencies.length : ℚ)) / 3 * 100) : ℤ) : ℚ) := by
      exact_mod_cast hf
    exact div_nonneg hq (by norm_num)
  · have hf : jsRoundQ ((3 - (rec.latencies.length : ℚ)) / 3 * 100) ≤ 100 := by
      unfold jsRoundQ
      have hlt : (3 - (rec.latencies.length : ℚ)) / 3 * 100 + 1 / 2
          < ((101 : ℤ) : ℚ) := by
        push_cast
        linarith
      have := Int.floor_lt.mpr hlt
      omega
    rw [div_le_one (by norm_num : (0 : ℚ) < 100)]
    exact_mod_cast hf

/-- C6 counterexample: the unix line ` 5  1.1.1.1  1 ms 2 ms 3 ms 4 ms *`
parses to a partial-loss record with four samples, whose lossRate is
−0.33 — outside [0,1]. -/
theorem claim_c6_counterexample :
    parseTraceLine (str " 5  1.1.1.1  1 ms 2 ms 3 ms 4 ms *") Platform.unix =
        some ⟨5, some (str "1.1.1.1"), [some 1, some 2, some 3, some 4],
          false, true⟩ ∧
      (classifyHop ⟨5, some (str "1.1.1.1"), [some 1, some 2, some 3, some 4],
          false, true⟩ none).lossRate = some (some (-(33 : ℚ) / 100)) ∧
      -(33 : ℚ) / 100 < 0 := by
  refine ⟨by decide, ?_, by norm_num⟩
  rw [classifyHop_lossy _ none rfl rfl]
  have h4 : jsRoundQ ((3 -
      ((([some 1, some 2, some 3, some 4] : List JSNum).length : ℕ) : ℚ))
        / 3 * 100) = -33 := by
    unfold jsRoundQ
    rw [show (3 -
        ((([some 1, some 2, some 3, some 4] : List JSNum).length : ℕ) : ℚ))
          / 3 * 100 + 1 / 2 = -197 / 6 by norm_num]
    rw [Int.floor_eq_iff]
    constructor <;> norm_num
  rw [h4]
  norm_num

/-- C6 witness: a documented-shape partial-loss line. -/
theorem claim_c6_witness :
    (classifyHop ⟨3, some (str "192.168.1.1"), [some 2],
          false, true⟩ none).type = HopType.lossy ∧
      (∃ q : ℚ, (classifyHop ⟨3, some (str "192.168.1.1"),
            [some 2], false, true⟩ none).lossRate =
          some (some q) ∧ 0 ≤ q ∧ q ≤ 1) :=
  ⟨(claim_c6_lossy Platform.unix (str " 3  192.168.1.1  * 2 ms *")
      ⟨3, some (str "192.168.1.1"), [some 2], false, true⟩ none
      (by decide) rfl).1,
   (claim_c6_lossy Platform.unix (str " 3  192.168.1.1  * 2 ms *")
      ⟨3, some (str "192.168.1.1"), [some 2], false, true⟩ none
      (by decide) rfl).2.2 (by decide)⟩

/-! ## Cache bound lemmas -/

theorem mapSet_length_le (ip : List Char) (v : Intel) (m : Cache) :
    (mapSet ip v m).length ≤ m.length + 1 := by
  unfold mapSet
  split
  · simp
  · simp

theorem cacheSet_at_capacity (ip : List Char) (intel : Intel) (hd : List Char × Intel)
    (rest : Cache) (hc : MAX_CACHE_SIZE ≤ (hd :: rest).length) :
    cacheSet ip intel (hd :: rest) = mapSet ip intel rest := by
  obtain ⟨k0, v0⟩ := hd
  unfold cacheSet
  rw [if_pos hc]
  show mapSet ip intel (List.eraseP (fun p => p.1 == k0) ((k0, v0) :: rest))
    = mapSet ip intel rest
  rw [List.eraseP_cons_of_pos (by simp)]

theorem cacheSet_below_capacity (ip : List Char) (intel : Intel) (m : Cache)
    (hc : ¬ MAX_CACHE_SIZE ≤ m.length) :
    cacheSet ip intel m = mapSet ip intel m := by
  unfold cacheSet
  rw [if_neg hc]

theorem cacheSet_length (ip : List Char) (intel : Intel) (m : Cache)
    (h : m.length ≤ MAX_CACHE_SIZE) :
    (cacheSet ip intel m).length ≤ MAX_CACHE_SIZE := by
  by_cases hc : MAX_CACHE_SIZE ≤ m.length
  · cases m with
    | nil => exact absurd hc (by decide)
    | cons hd rest =>
      rw [cacheSet_at_capacity ip intel hd rest hc]
      have hm := mapSet_length_le ip intel rest
      have hr : (hd :: rest).length = rest.length + 1 := by simp
      omega
  · rw [cacheSet_below_capacity ip intel m hc]
    have hm := mapSet_length_le ip intel m
    omega

theorem gatherIntel_length (ip : Option (List Char)) (net : NetOracle)
    (m : Cache) (h : m.length ≤ MAX_CACHE_SIZE) :
    (gatherIntel ip net m).2.1.length ≤ MAX_CACHE_SIZE := by
  unfold gatherIntel
  rcases ip with _ | s
  · exact h
  · by_cases he : s.isEmpty
    · simp [he]
      exact h
    · by_cases hp : ipPattern s
      · cases hg : cacheGet s m with
        | some c => simp [he, hp, hg]; exact h
        | none => simp [he, hp, hg]; exact cacheSet_length _ _ _ h
      · simp [he, hp]
        exact h

/-- C4 (confirmed).  The cache never exceeds 500 entries over any sequence
of `gatherIntel` calls starting from the empty cache, and an insertion of a
fresh key performed while the cache is at capacity evicts exactly the
single oldest-inserted entry (the head of the insertion-ordered map) and
appends the new entry. -/
theorem claim_c4_cache_bound (calls : List (Option (List Char) × NetOracle))
    (m : Cache) (ip : List Char) (intel : Intel) :
    (calls.foldl (fun mm c => (gatherIntel c.1 c.2 mm).2.1) []).length
        ≤ MAX_CACHE_SIZE ∧
      (m.length = MAX_CACHE_SIZE → (∀ p ∈ m, p.1 ≠ ip) →
        cacheSet ip intel m = m.tail ++ [(ip, intel)]) := by
  constructor
  · have hinv : ∀ (cs : List (Option (List Char) × NetOracle)) (mm : Cache),
        mm.length ≤ MAX_CACHE_SIZE →
        (cs.foldl (fun mm c => (gatherIntel c.1 c.2 mm).2.1) mm).length
          ≤ MAX_CACHE_SIZE := by
      intro cs
      induction cs with
      | nil => intro mm h; simpa using h
      | cons c cs ih =>
        intro mm h
        exact ih _ (gatherIntel_length c.1 c.2 mm h)
    exact hinv calls [] (by simp [MAX_CACHE_SIZE])
  · intro hlen hfresh
    cases m with
    | nil => simp [MAX_CACHE_SIZE] at hlen
    | cons hd rest =>
      rw [cacheSet_at_capacity ip intel hd rest (by rw [hlen])]
      unfold mapSet
      have hany : rest.any (fun p => p.1 == ip) = false := by
        rw [List.any_eq_false]
        intro p hp
        simpa using hfresh p (List.mem_cons_of_mem _ hp)
      rw [hany]
      simp

set_option maxRecDepth 100000 in
/-- C4 witness: a concrete at-capacity cache evicting its oldest entry. -/
theorem claim_c4_witness :
    (([] : List (Option (List Char) × NetOracle)).foldl
          (fun mm c => (gatherIntel c.1 c.2 mm).2.1) []).length
        ≤ MAX_CACHE_SIZE ∧
      cacheSet (str "1.2.3.4") ⟨str "1.2.3.4", none, none, none, none, none⟩
          (List.replicate 500 (str "x", ⟨str "x", none, none, none, none, none⟩)) =
        (List.replicate 500
            (str "x", ⟨str "x", none, none, none, none, none⟩)).tail ++
          [(str "1.2.3.4", ⟨str "1.2.3.4", none, none, none, none, none⟩)] :=
  ⟨(claim_c4_cache_bound []
      (List.replicate 500 (str "x", ⟨str "x", none, none, none, none, none⟩))
      (str "1.2.3.4") ⟨str "1.2.3.4", none, none, none, none, none⟩).1,
   (claim_c4_cache_bound []
      (List.replicate 500 (str "x", ⟨str "x", none, none, none, none, none⟩))
      (str "1.2.3.4") ⟨str "1.2.3.4", none, none, none, none, none⟩).2
     (by simp [MAX_CACHE_SIZE])
     (by
       intro p hp
       rw [List.eq_of_mem_replicate hp]
       decide)⟩

/-- C10 witness. -/
theorem claim_c10_witness :
    (runEvents Platform.unix [REvent.cancel]).1.cancelled = true ∧
      (runnerStep Platform.unix ⟨true, false, true, str "frag"⟩
          REvent.timeout).1.cancelled = true ∧
      ((runnerStep Platform.unix ⟨true, false, true, str "frag"⟩
            REvent.close).2 = [] ∧
        (runnerStep Platform.unix ⟨true, false, true, str "frag"⟩
            REvent.close).1.completed = false ∧
        (runnerStep Platform.unix ⟨true, false, true, str "frag"⟩
            REvent.close).1.buffer = str "frag") :=
  ⟨(claim_c10_cancel_close Platform.unix [REvent.cancel]
      ⟨true, false, true, str "frag"⟩).1 (by decide),
   (claim_c10_cancel_close Platform.unix [REvent.cancel]
      ⟨true, false, true, str "frag"⟩).2.1 rfl,
   (claim_c10_cancel_close Platform.unix [REvent.cancel]
      ⟨true, false, true, str "frag"⟩).2.2 rfl⟩

end NeonPing
